import Mathlib

/-!
Shallow embedding of the core pipeline of `epitopepredict/base.py`:
ranking (`Predictor.getRanking`), binder selection (`Predictor.getBinders`),
promiscuous-binder aggregation (`Predictor.getPromiscuousBinders`), the
quantile-table calibration step of `getScoreDistributions`, and the greedy
overlap clusterer (`getOverlapping` / `checkMembers` / `getClusters`).

Modelling conventions:
* pandas DataFrames become `List Row` (row order is kept, since several
  steps of the source depend on it);
* Python strings become `List Char` (`Str`), ordered by code-point
  lexicographic order, exactly the order pandas uses to sort string keys
  in `groupby`;
* float scores become `Int` (only order, min and max are used on them);
  quantile levels and interpolated quantile values become `ℚ`;
* `pandas.groupby(k)` becomes: sorted deduplicated key list, one filtered
  sub-list per key (pandas sorts group keys and keeps intra-group order);
* `pd.concat` on an empty list of frames raises `ValueError`, so functions
  that reach it return `Except String`;
* Python's stable `sorted` and pandas sorts become `List.insertionSort`
  (a stable sort).
-/

namespace EpitopePredict

/-- Python strings, as their character lists (code-point lexicographic order,
which is how pandas sorts string group keys). -/
abbrev Str := List Char

/-- Shorthand to build a `Str` from a string literal. -/
def str (s : String) : Str := s.data

/-- One prediction record: a row of the normalized score table produced by a
predictor (columns `name`, `allele`, `peptide`, `core`, `pos`, the score
column, and the `rank` column filled by `getRanking`). -/
structure Row where
  name : Str
  allele : Str
  peptide : Str
  core : Str
  pos : Int
  score : Int
  rank : Int
deriving DecidableEq

/-- Direction of a predictor: `lower` models `operator == '<'` together with
`rankascending == 1` (affinity-like scores), `higher` models `operator == '>'`
with `rankascending == 0` (propensity-like scores); every predictor subclass
in the source pairs the two attributes this way. -/
inductive Direction where
  | lower
  | higher
deriving DecidableEq

/-- The per-predictor configuration used by `getBinders`: direction, the
default `cutoff` attribute, and the optional `allelecutoffs` dictionary. -/
structure Cfg where
  direction : Direction
  cutoff : Int
  allelecutoffs : List (Str × Int)

/-- The selection method argument of `getBinders` (the source returns `None`
for any other method string, which no caller uses). -/
inductive SelMethod where
  | cutoff
  | rank
deriving DecidableEq

/-- Duplicate removal keeping first occurrences, in order: the key order of a
Python dict built by repeated insertion, and the group-key set of a pandas
`groupby` before sorting. -/
def dedupFirst {α : Type} [DecidableEq α] (l : List α) : List α :=
  l.foldl (fun acc x => if x ∈ acc then acc else acc ++ [x]) []

/-- The strict "is a better score" order selected by the predictor direction. -/
def betterScore (d : Direction) (x y : Int) : Prop :=
  match d with
  | .lower => x < y
  | .higher => y < x

instance (d : Direction) (x y : Int) : Decidable (betterScore d x y) :=
  match d with
  | .lower => inferInstanceAs (Decidable (x < y))
  | .higher => inferInstanceAs (Decidable (y < x))

/-- How many scores of `df` are strictly better than `x`: pandas
`rank(method='min', ascending=rankascending)` assigns `1 +` this count. -/
def countBetter (d : Direction) (df : List Row) (x : Int) : Nat :=
  df.countP (fun y => decide (betterScore d y.score x))

/-- Lexicographic comparison on (rank, name, allele): the sort key of
`sort_values(by=['rank','name','allele'])` in `getRanking`. -/
def rankSortLe (a b : Row) : Prop :=
  a.rank < b.rank ∨ (a.rank = b.rank ∧
    (a.name < b.name ∨ (a.name = b.name ∧ a.allele ≤ b.allele)))

instance : DecidableRel rankSortLe := fun a b =>
  inferInstanceAs (Decidable (a.rank < b.rank ∨ (a.rank = b.rank ∧
    (a.name < b.name ∨ (a.name = b.name ∧ a.allele ≤ b.allele)))))

/-- `Predictor.getRanking`: add the min-tie rank column for the whole score
column, then sort by (rank, name, allele). -/
def getRanking (d : Direction) (df : List Row) : List Row :=
  let ranked := df.map (fun r => { r with rank := 1 + (countBetter d df r.score : Int) })
  List.insertionSort rankSortLe ranked

/-- `Predictor.evaluate`: keep rows at or beyond the cutoff, direction-aware
(`score <= value` for `'<'`, `score >= value` for `'>'`). -/
def evaluate (d : Direction) (value : Int) (g : List Row) : List Row :=
  match d with
  | .lower => g.filter (fun r => decide (r.score ≤ value))
  | .higher => g.filter (fun r => decide (value ≤ r.score))

/-- Per-allele cutoff lookup of `getBinders`: the `allelecutoffs` dictionary
when the allele is present, otherwise the predictor default `cutoff`. -/
def lookupCutoff (cfg : Cfg) (a : Str) : Int :=
  match cfg.allelecutoffs.lookup a with
  | some c => c
  | none => cfg.cutoff

/-- Sorted distinct allele keys of `data.groupby('allele')`. -/
def alleleKeys (data : List Row) : List Str :=
  List.insertionSort (· ≤ ·) (dedupFirst (data.map (·.allele)))

/-- Sorted distinct protein-name keys of `data.groupby('name')`. -/
def nameKeys (data : List Row) : List Str :=
  List.insertionSort (· ≤ ·) (dedupFirst (data.map (·.name)))

/-- `pd.concat` on a list of frames: raises
`ValueError: No objects to concatenate` when the list is empty, otherwise
stacks the frames in order. -/
def concatFrames (frames : List (List Row)) : Except String (List Row) :=
  match frames with
  | [] => .error "No objects to concatenate"
  | _ => .ok frames.flatten

/-- Linear-interpolation quantile of a list of values at level `q`: the
default behaviour of `Series.quantile` / `DataFrame.quantile`.  An empty
list gives the junk value 0 (pandas would give NaN). -/
def rawQuantile (xs : List ℚ) (q : ℚ) : ℚ :=
  let s := List.insertionSort (· ≤ ·) xs
  if s.length = 0 then 0
  else
    let h : ℚ := q * ((s.length : ℚ) - 1)
    let i : Nat := (⌊h⌋).toNat
    let lo : ℚ := s.getD i 0
    let hi : ℚ := s.getD (min (i + 1) (s.length - 1)) 0
    lo + (h - (i : ℚ)) * (hi - lo)

/-- `Predictor.getBinders` on explicit data: `'cutoff'` mode partitions by
allele and keeps rows past each allele's cutoff; `'rank'` mode partitions by
protein name and keeps rows whose rank is at most the `q`-quantile of the
group's ranks.  Both end in `pd.concat(res)`, which raises on a zero-group
(zero-row) input. -/
def getBinders (cfg : Cfg) (m : SelMethod) (q : ℚ) (data : List Row) :
    Except String (List Row) :=
  match m with
  | .cutoff =>
      concatFrames ((alleleKeys data).map (fun a =>
        evaluate cfg.direction (lookupCutoff cfg a)
          (data.filter (fun r => decide (r.allele = a)))))
  | .rank =>
      concatFrames ((nameKeys data).map (fun nm =>
        let g := data.filter (fun r => decide (r.name = nm))
        let v := rawQuantile (g.map (fun r => (r.rank : ℚ))) q
        g.filter (fun r => decide ((r.rank : ℚ) ≤ v))))

/-- The `groupby(['peptide','pos','name'])` key of a row. -/
def rowKey (r : Row) : Str × Int × Str := (r.peptide, r.pos, r.name)

/-- Lexicographic order on (peptide, pos, name) keys: how pandas sorts the
groups of a multi-key `groupby`. -/
def keyLe (a b : Str × Int × Str) : Prop :=
  a.1 < b.1 ∨ (a.1 = b.1 ∧ (a.2.1 < b.2.1 ∨ (a.2.1 = b.2.1 ∧ a.2.2 ≤ b.2.2)))

instance : DecidableRel keyLe := fun a b =>
  inferInstanceAs (Decidable (a.1 < b.1 ∨ (a.1 = b.1 ∧
    (a.2.1 < b.2.1 ∨ (a.2.1 = b.2.1 ∧ a.2.2 ≤ b.2.2)))))

/-- Sorted distinct (peptide, pos, name) keys of the binder table. -/
def promKeys (b : List Row) : List (Str × Int × Str) :=
  List.insertionSort keyLe (dedupFirst (b.map rowKey))

/-- The rows of one (peptide, pos, name) group, in table order. -/
def groupRows (b : List Row) (k : Str × Int × Str) : List Row :=
  b.filter (fun r => decide (rowKey r = k))

/-- Python `min` over a list of scores (0 on the empty list, never used). -/
def listMin : List Int → Int
  | [] => 0
  | x :: xs => xs.foldl min x

/-- Python `max` over a list of scores (0 on the empty list, never used). -/
def listMax : List Int → Int
  | [] => 0
  | x :: xs => xs.foldl max x

/-- The aggregation function chosen for the score column in step 3 of
`getPromiscuousBinders`: `min` when the operator is `'<'`, else `max`. -/
def extremeScore (d : Direction) (l : List Int) : Int :=
  match d with
  | .lower => listMin l
  | .higher => listMax l

/-- A row of the aggregated frame `s` of `getPromiscuousBinders` after
`reset_index()`: the group key, the aggregated `allele` column (which holds
`pd.Series.count` of the group, i.e. the number of non-null records), and the
aggregated score column. -/
structure PromRow where
  peptide : Str
  pos : Int
  name : Str
  alleleCount : Nat
  score : Int
deriving DecidableEq

/-- Steps 3 of `getPromiscuousBinders`:
`b.groupby(['peptide','pos','name']).agg({'allele': pd.Series.count, scorekey: func})`. -/
def promGroups (d : Direction) (b : List Row) : List PromRow :=
  (promKeys b).map (fun k =>
    { peptide := k.1, pos := k.2.1, name := k.2.2,
      alleleCount := (groupRows b k).length,
      score := extremeScore d ((groupRows b k).map (·.score)) })

/-- Step 4: `s = s[s.allele >= n]`. -/
def promFiltered (d : Direction) (n : Nat) (b : List Row) : List PromRow :=
  (promGroups d b).filter (fun s => decide (n ≤ s.alleleCount))

/-- Step 5's representative frame `p = list(data.groupby('allele'))[0][1]`:
the rows of the first allele in sorted key order (the columns `allele`,
`rank` and the score column are dropped from `p`; the model simply never
reads them). -/
def repRows (data : List Row) : List Row :=
  match alleleKeys data with
  | [] => []
  | a :: _ => data.filter (fun r => decide (r.allele = a))

/-- A row of the frame obtained by `pd.merge(p, s, how='right',
on=['peptide','pos','name'])`: key columns, the `core` column contributed by
`p` (absent when the key has no match in `p`), and the aggregated columns of
`s`.  Note the merged `allele` column holds the group count. -/
structure MergedRow where
  peptide : Str
  core : Option Str
  pos : Int
  name : Str
  alleleCount : Nat
  score : Int
deriving DecidableEq

/-- `pd.merge(p, s, how='right', on=['peptide','pos','name'])`: one output
row per match of a key of `s` in `p` (in `p` order), or a single row with a
missing `core` when the key is absent from `p`; output follows the key order
of `s`. -/
def mergeRight (p : List Row) (s : List PromRow) : List MergedRow :=
  s.flatMap (fun srow =>
    let hits := p.filter (fun r =>
      decide (r.peptide = srow.peptide ∧ r.pos = srow.pos ∧ r.name = srow.name))
    match hits with
    | [] => [{ peptide := srow.peptide, core := none, pos := srow.pos,
               name := srow.name, alleleCount := srow.alleleCount, score := srow.score }]
    | _ :: _ => hits.map (fun r =>
        { peptide := srow.peptide, core := some r.core, pos := srow.pos,
          name := srow.name, alleleCount := srow.alleleCount, score := srow.score }))

/-- Sorted distinct core keys of `final.groupby('core')` (pandas drops
missing keys from a groupby). -/
def coreKeys (xs : List MergedRow) : List Str :=
  List.insertionSort (· ≤ ·) (dedupFirst (xs.filterMap (·.core)))

/-- The rows of one core group, in table order. -/
def coreGroup (xs : List MergedRow) (c : Str) : List MergedRow :=
  xs.filter (fun r => decide (r.core = some c))

/-- Junk row backing `headD`; never read on a non-empty group. -/
def defaultMerged : MergedRow :=
  { peptide := [], core := none, pos := 0, name := [], alleleCount := 0, score := 0 }

/-- The aggregated row of one core group in step 6:
`agg({scorekey: max, 'name': first, 'peptide': first, 'pos': first,
'allele': first})` — note the score aggregation is the plain Python `max`
regardless of the predictor direction. -/
def aggCore (xs : List MergedRow) (c : Str) : MergedRow :=
  let g := coreGroup xs c
  { peptide := (g.headD defaultMerged).peptide,
    core := some c,
    pos := (g.headD defaultMerged).pos,
    name := (g.headD defaultMerged).name,
    alleleCount := (g.headD defaultMerged).alleleCount,
    score := listMax (g.map (·.score)) }

/-- Comparison by position: the key of the final `sort_values('pos')`. -/
def posLe (a b : MergedRow) : Prop := a.pos ≤ b.pos

instance : DecidableRel posLe := fun a b => inferInstanceAs (Decidable (a.pos ≤ b.pos))

/-- Step 6 of `getPromiscuousBinders`: group the joined frame by core,
aggregate (max score, first-seen other columns), `reset_index()` and
`sort_values('pos')`. -/
def dedupCore (xs : List MergedRow) : List MergedRow :=
  List.insertionSort posLe ((coreKeys xs).map (aggCore xs))

/-- `Predictor.getPromiscuousBinders` on explicit data (no name filter):
select binders, return empty on an empty binder table, aggregate by
(peptide, pos, name), keep groups with at least `n` records, right-join the
representative allele's rows, and deduplicate by core. -/
def getPromiscuousBinders (cfg : Cfg) (n : Nat) (m : SelMethod) (q : ℚ)
    (data : List Row) : Except String (List MergedRow) :=
  match getBinders cfg m q data with
  | .error e => .error e
  | .ok b =>
      if b = [] then .ok []
      else
        let s := promFiltered cfg.direction n b
        if s = [] then .ok []
        else .ok (dedupCore (mergeRight (repRows data) s))

/-- The quantile levels `np.arange(0.01, 1, 0.01)` in `getScoreDistributions`. -/
def percs : List ℚ := (List.range 99).map (fun k => ((k : ℚ) + 1) / 100)

/-- The rows `bins = result.quantile(percs)` for one allele column of the
concatenated corpus: (level, value) pairs. -/
def quantileBins (dist : List ℚ) : List (ℚ × ℚ) :=
  percs.map (fun p => (p, rawQuantile dist p))

/-- The relabelling step of `getScoreDistributions` for one allele column:
when the operator is `'<'`, each quantile row `q` is re-indexed as `1 - q`
before the table is persisted; values are unchanged. -/
def getScoreDistributions (d : Direction) (dist : List ℚ) : List (ℚ × ℚ) :=
  match d with
  | .lower => (quantileBins dist).map (fun pv => (1 - pv.1, pv.2))
  | .higher => quantileBins dist

/-- The tail of the chain built by `getOverlapping`: starting after `last`,
append the next candidate only while it is within `length` of the previously
appended position, stopping at the first violation (`break`). -/
def chainTail (length : Int) : Int → List Int → List Int
  | _, [] => []
  | last, v :: rest =>
      if v ≤ last + length then v :: chainTail length v rest else []

/-- `getOverlapping(index, s, length, cutoff)`: `g = [s]` plus the chained
positions among `[i for i in range(s, s + cutoff) if i in index]` (the scan
compares consecutive entries of that candidate list, which coincides with
the last appended position because acceptance stops at the first gap). -/
def getOverlapping (index : List Int) (s : Int) (length cutoff : Int) : List Int :=
  let vals := ((List.range cutoff.toNat).map (fun k => s + (k : Int))).filter
    (fun i => decide (i ∈ index))
  match vals with
  | [] => [s]
  | v :: rest => s :: chainTail length v rest

/-- `checkMembers(g, clusts)`: `False` as soon as `g` meets an existing
cluster or has fewer than two members (only checked against a non-empty
cluster list), else `True`. -/
def checkMembers (g : List Int) (clusts : List (List Int)) : Bool :=
  clusts.all (fun i => !(g.any (fun x => decide (x ∈ i)) || decide (g.length < 2)))

/-- Sort key of `sorted(groups, key=len, reverse=True)`. -/
def lenGe (a b : List Int) : Prop := b.length ≤ a.length

instance : DecidableRel lenGe := fun a b => inferInstanceAs (Decidable (b.length ≤ a.length))

/-- The candidate chains of `getClusters`: one call of `getOverlapping` per
distinct position, with `length := clustlen - nmer` (the `overlap` variable)
and `cutoff := clustlen`. -/
def candidateChains (positions : List Int) (nmer clustlen : Nat) : List (List Int) :=
  let locs := dedupFirst positions
  locs.map (fun s => getOverlapping locs s ((clustlen : Int) - (nmer : Int)) (clustlen : Int))

/-- `getClusters(B, clustlen)` on the positions of `B` (`nmer` is the
peptide length of the first row): rank candidate chains longest first, then
greedily accept each chain that passes `checkMembers`. -/
def getClusters (positions : List Int) (nmer clustlen : Nat) : List (List Int) :=
  let ranked := List.insertionSort lenGe (candidateChains positions nmer clustlen)
  ranked.foldl (fun clusts g => if checkMembers g clusts then clusts ++ [g] else clusts) []

end EpitopePredict

namespace EpitopePredict

/-! ### Concrete tables used by counterexamples and witnesses -/

/-- A lower-is-better predictor whose default cutoff admits every example
row (like an IC50 predictor with a permissive cutoff). -/
def cfgLower : Cfg := { direction := .lower, cutoff := 100, allelecutoffs := [] }

/-- Row builder for the example tables (rank starts unset at 0, as the
source fills it only in `getRanking`). -/
def mkRow (nm al pep co : String) (pos sc : Int) : Row :=
  { name := str nm, allele := str al, peptide := str pep, core := str co,
    pos := pos, score := sc, rank := 0 }

/-- Two alleles, two peptides sharing the core `c`, lower-is-better scores. -/
def exC1 : List Row :=
  [ mkRow "P" "a1" "AAA" "c" 1 1, mkRow "P" "a2" "AAA" "c" 1 2,
    mkRow "P" "a1" "BBB" "c" 2 5, mkRow "P" "a2" "BBB" "c" 2 6 ]

/-- The binder table `getBinders` produces from `exC1` (allele groups in
sorted order). -/
def bC1 : List Row :=
  [ mkRow "P" "a1" "AAA" "c" 1 1, mkRow "P" "a1" "BBB" "c" 2 5,
    mkRow "P" "a2" "AAA" "c" 1 2, mkRow "P" "a2" "BBB" "c" 2 6 ]

/-- The joined frame of `exC1` after steps 3-5 with n = 2: both surviving
keys carry core `c`, with group-minimum scores 1 and 5. -/
def exJ1 : List MergedRow :=
  [ { peptide := str "AAA", core := some (str "c"), pos := 1, name := str "P",
      alleleCount := 2, score := 1 },
    { peptide := str "BBB", core := some (str "c"), pos := 2, name := str "P",
      alleleCount := 2, score := 5 } ]

/-- A binder table in which the same (peptide, pos, name, allele) record
occurs twice (a duplicated input row). -/
def exC4 : List Row := [ mkRow "P" "a1" "AAA" "c" 1 1, mkRow "P" "a1" "AAA" "c" 1 2 ]

/-- Four alleles: peptide `PPPP` is a binder in exactly 2 of them, peptide
`QQQQ` in exactly 3, peptide `RRRR` in exactly 1. -/
def exC4w : List Row :=
  [ mkRow "P" "a1" "PPPP" "cp" 2 1, mkRow "P" "a2" "PPPP" "cp" 2 2,
    mkRow "P" "a1" "QQQQ" "cq" 7 3, mkRow "P" "a2" "QQQQ" "cq" 7 4,
    mkRow "P" "a3" "QQQQ" "cq" 7 5, mkRow "P" "a4" "RRRR" "cr" 9 6 ]

/-- Four alleles, one protein: peptide `AAA` at position 5 is a binder in 3
alleles, peptide `BBB` at position 9 in all 4, and both share core `c`. -/
def exC7 : List Row :=
  [ mkRow "P" "a1" "AAA" "c" 5 1, mkRow "P" "a1" "BBB" "c" 9 4,
    mkRow "P" "a2" "AAA" "c" 5 2, mkRow "P" "a2" "BBB" "c" 9 5,
    mkRow "P" "a3" "AAA" "c" 5 3, mkRow "P" "a3" "BBB" "c" 9 6,
    mkRow "P" "a4" "BBB" "c" 9 7 ]

/-! ### Helper lemmas about `dedupFirst` and sorted key lists -/

lemma foldl_dedup_mem {α : Type} [DecidableEq α] (l : List α) (acc : List α) (x : α) :
    x ∈ l.foldl (fun acc x => if x ∈ acc then acc else acc ++ [x]) acc ↔
      x ∈ acc ∨ x ∈ l := by
  induction l generalizing acc with
  | nil => simp
  | cons a l ih =>
      simp only [List.foldl_cons]
      by_cases h : a ∈ acc
      · rw [if_pos h, ih]
        simp only [List.mem_cons]
        constructor
        · rintro (hx | hx)
          · exact Or.inl hx
          · exact Or.inr (Or.inr hx)
        · rintro (hx | rfl | hx)
          · exact Or.inl hx
          · exact Or.inl h
          · exact Or.inr hx
      · rw [if_neg h, ih]
        simp only [List.mem_append, List.mem_singleton, List.mem_cons]
        tauto

lemma foldl_dedup_nodup {α : Type} [DecidableEq α] (l : List α) (acc : List α)
    (h : acc.Nodup) :
    (l.foldl (fun acc x => if x ∈ acc then acc else acc ++ [x]) acc).Nodup := by
  induction l generalizing acc with
  | nil => simpa
  | cons a l ih =>
      simp only [List.foldl_cons]
      by_cases ha : a ∈ acc
      · rw [if_pos ha]; exact ih acc h
      · rw [if_neg ha]
        refine ih (acc ++ [a]) ?_
        rw [List.nodup_append]
        exact ⟨h, List.nodup_singleton a, by simpa using ha⟩

lemma foldl_dedup_of_nodup {α : Type} [DecidableEq α] (l : List α) (acc : List α)
    (h : (acc ++ l).Nodup) :
    l.foldl (fun acc x => if x ∈ acc then acc else acc ++ [x]) acc = acc ++ l := by
  induction l generalizing acc with
  | nil => simp
  | cons a l ih =>
      have hd : List.Disjoint acc (a :: l) := (List.nodup_append.mp h).2.2
      have ha : a ∉ acc := fun hm => hd hm (List.mem_cons_self a l)
      simp only [List.foldl_cons, if_neg ha]
      have hassoc : (acc ++ [a]) ++ l = acc ++ a :: l := by simp
      rw [ih (acc ++ [a]) (by rw [hassoc]; exact h), hassoc]

lemma mem_dedupFirst {α : Type} [DecidableEq α] {x : α} {l : List α} :
    x ∈ dedupFirst l ↔ x ∈ l := by
  simpa [dedupFirst] using foldl_dedup_mem l [] x

lemma dedupFirst_nodup {α : Type} [DecidableEq α] (l : List α) :
    (dedupFirst l).Nodup :=
  foldl_dedup_nodup l [] List.nodup_nil

lemma dedupFirst_eq_self {α : Type} [DecidableEq α] {l : List α} (h : l.Nodup) :
    dedupFirst l = l := by
  simpa [dedupFirst] using foldl_dedup_of_nodup l [] (by simpa)

lemma dedupFirst_perm_of_perm {α : Type} [DecidableEq α] {l₁ l₂ : List α}
    (h : l₁.Perm l₂) : (dedupFirst l₁).Perm (dedupFirst l₂) :=
  (List.perm_ext_iff_of_nodup (dedupFirst_nodup l₁) (dedupFirst_nodup l₂)).mpr
    (fun a => by rw [mem_dedupFirst, mem_dedupFirst, h.mem_iff])

lemma insertionSort_le_eq_of_perm {l₁ l₂ : List Str} (h : l₁.Perm l₂) :
    List.insertionSort (· ≤ ·) l₁ = List.insertionSort (· ≤ ·) l₂ :=
  List.eq_of_perm_of_sorted
    ((List.perm_insertionSort _ _).trans (h.trans (List.perm_insertionSort _ _).symm))
    (List.sorted_insertionSort _ _) (List.sorted_insertionSort _ _)

/-! ### Claims settled by closed evaluation -/

/-- C2 (code_bug record): on a zero-row table, both selection modes of
`getBinders` reach `pd.concat` with an empty list of frames, which raises
`ValueError: No objects to concatenate` instead of returning an empty
table. -/
theorem C2_zero_row_input_raises : ∀ (cfg : Cfg) (m : SelMethod) (q : ℚ),
    getBinders cfg m q [] = .error "No objects to concatenate" := by
  intro cfg m q
  cases m <;> rfl

/-- C3 (counterexample): with positions {10,12,14,30}, peptideLength 9 and
clusterLength 25, the chain started at 10 is not [10,12,14] (the gap bound
the code uses is clusterLength - peptideLength = 16, so 30 joins the chain),
[10,12,14] is not an accepted cluster, and the output is not
[[10,12,14],[30]]. -/
theorem C3_counterexample :
    getOverlapping [10, 12, 14, 30] 10 ((25 : Int) - 9) 25 ≠ [10, 12, 14]
    ∧ [10, 12, 14] ∉ getClusters [10, 12, 14, 30] 9 25
    ∧ getClusters [10, 12, 14, 30] 9 25 ≠ [[10, 12, 14], [30]] := by
  refine ⟨?_, ?_, ?_⟩ <;> decide

/-- C3 (amended): with the gap bound the code actually uses
(clusterLength - peptideLength = 16), the candidate chain from 10 extends
through 12, 14 and 30; the chains from 12, 14 and 30 are the suffixes
([30] is a singleton candidate chain); and the only accepted cluster is
[10,12,14,30]. -/
theorem C3_chains_and_cluster :
    candidateChains [10, 12, 14, 30] 9 25
      = [[10, 12, 14, 30], [12, 14, 30], [14, 30], [30]]
    ∧ getClusters [10, 12, 14, 30] 9 25 = [[10, 12, 14, 30]] := by
  exact ⟨by decide, by decide⟩

/-- C4 (counterexample): with a duplicated (peptide, pos, name, allele)
record, the aggregated `allele` column (a `pd.Series.count` of records) is
2 while only 1 distinct allele supports the group, so "allele_count equals
the number of distinct alleles" fails. -/
theorem C4_counterexample :
    (promGroups Direction.lower exC4).map (·.alleleCount) = [2]
    ∧ (dedupFirst ((groupRows exC4 (str "AAA", 1, str "P")).map (·.allele))).length = 1
    ∧ (2 : Nat) ≠ 1 := by
  exact ⟨by decide, by decide, by decide⟩

/-- C1 (counterexample): on the lower-is-better table `exC1` with n = 2, the
joined frame has one core group with scores [1, 5]; its direction extreme is
the minimum 1, but step 6 keeps 5 (the plain `max`), so the final
deduplication does not keep the minimum score for a lower-is-better
predictor. -/
theorem C1_counterexample :
    getBinders cfgLower SelMethod.cutoff (1/100) exC1 = .ok bC1
    ∧ mergeRight (repRows exC1) (promFiltered Direction.lower 2 bC1) = exJ1
    ∧ dedupCore exJ1 = [⟨str "AAA", some (str "c"), 1, str "P", 2, 5⟩]
    ∧ extremeScore Direction.lower ((coreGroup exJ1 (str "c")).map (·.score)) = 1
    ∧ (5 : Int) ≠ 1 := by
  refine ⟨rfl, rfl, rfl, rfl, by decide⟩

/-- C7 (counterexample): on `exC7`, threshold 3 outputs the single position
5 while threshold 4 outputs the single position 9, so the positions returned
for n + 1 = 4 are not a subset of those returned for n = 3. -/
theorem C7_counterexample :
    getPromiscuousBinders cfgLower 3 SelMethod.cutoff (1/100) exC7
      = .ok [⟨str "AAA", some (str "c"), 5, str "P", 3, 4⟩]
    ∧ getPromiscuousBinders cfgLower 4 SelMethod.cutoff (1/100) exC7
      = .ok [⟨str "BBB", some (str "c"), 9, str "P", 4, 4⟩]
    ∧ (9 : Int) ∉ ([5] : List Int) := by
  refine ⟨rfl, rfl, by decide⟩

end EpitopePredict

namespace EpitopePredict

/-! ### Overlap clusterer: accepted clusters are pairwise disjoint -/

lemma checkMembers_disjoint {g : List Int} {clusts : List (List Int)}
    (h : checkMembers g clusts = true) : ∀ i ∈ clusts, ∀ x ∈ g, x ∉ i := by
  intro i hi x hx hxi
  have h2 := List.all_eq_true.mp h i hi
  simp only [Bool.not_eq_eq_eq_not, Bool.not_true, Bool.or_eq_false_iff,
    List.any_eq_false, decide_eq_false_iff_not] at h2
  exact h2.1 x hx (decide_eq_true hxi)

lemma foldl_clusters_pairwise (ranked : List (List Int)) :
    ∀ acc : List (List Int), (acc.Pairwise fun c1 c2 => ∀ x ∈ c1, x ∉ c2) →
      ((ranked.foldl (fun clusts g =>
          if checkMembers g clusts then clusts ++ [g] else clusts) acc).Pairwise
        fun c1 c2 => ∀ x ∈ c1, x ∉ c2) := by
  induction ranked with
  | nil => intro acc h; simpa using h
  | cons g gs ih =>
      intro acc h
      simp only [List.foldl_cons]
      by_cases hc : checkMembers g acc
      · rw [if_pos hc]
        refine ih _ ?_
        rw [List.pairwise_append]
        refine ⟨h, List.pairwise_singleton _ _, ?_⟩
        intro a ha b hb
        rw [List.mem_singleton] at hb
        subst hb
        intro x hxa hxg
        exact checkMembers_disjoint hc a ha x hxg hxa
      · rw [if_neg hc]
        exact ih _ h

/-- C9: every two accepted clusters produced by `getClusters` are
position-disjoint: each greedily accepted chain passes `checkMembers`, which
rejects any chain meeting an already accepted cluster. -/
theorem C9_clusters_disjoint : ∀ (positions : List Int) (nmer clustlen : Nat),
    (getClusters positions nmer clustlen).Pairwise fun c1 c2 => ∀ x ∈ c1, x ∉ c2 := by
  intro positions nmer clustlen
  rw [getClusters]
  exact foldl_clusters_pairwise _ [] List.Pairwise.nil

/-! ### Promiscuity threshold filter is monotone in n (before the join) -/

/-- C7 (amended): the allele-count filter of step 4 is monotone in the
threshold: every (peptide, pos, name) group kept at threshold n + 1 is kept
at threshold n, hence so is its position.  (The original claim about the
final output fails because the per-core first-seen row can change, see the
counterexample.) -/
theorem C7_threshold_monotone : ∀ (d : Direction) (n : Nat) (b : List Row),
    promFiltered d (n + 1) b ⊆ promFiltered d n b
    ∧ ∀ x ∈ (promFiltered d (n + 1) b).map (·.pos),
        x ∈ (promFiltered d n b).map (·.pos) := by
  intro d n b
  have hsub : promFiltered d (n + 1) b ⊆ promFiltered d n b := by
    intro s hs
    rw [promFiltered, List.mem_filter] at hs ⊢
    refine ⟨hs.1, ?_⟩
    have := of_decide_eq_true hs.2
    exact decide_eq_true (by omega)
  refine ⟨hsub, ?_⟩
  intro x hx
  obtain ⟨s, hs, rfl⟩ := List.mem_map.mp hx
  exact List.mem_map.mpr ⟨s, hsub hs, rfl⟩

/-! ### Ranking engine: min tie semantics -/

lemma betterScore_trans (d : Direction) {x y z : Int} :
    betterScore d x y → betterScore d y z → betterScore d x z := by
  cases d
  · exact fun h1 h2 => lt_trans h1 h2
  · exact fun h1 h2 => lt_trans h2 h1

lemma betterScore_irrefl (d : Direction) (x : Int) : ¬ betterScore d x x := by
  cases d <;> exact lt_irrefl x

lemma countP_lt_of_witness {α : Type} (p q : α → Bool) (l : List α)
    (hpq : ∀ y ∈ l, p y = true → q y = true)
    (x : α) (hx : x ∈ l) (hqx : q x = true) (hpx : p x = false) :
    l.countP p < l.countP q := by
  induction l with
  | nil => cases hx
  | cons a l ih =>
      rw [List.countP_cons, List.countP_cons]
      have hpq' : ∀ y ∈ l, p y = true → q y = true :=
        fun y hy => hpq y (List.mem_cons_of_mem a hy)
      rcases List.mem_cons.mp hx with rfl | hxl
      · have hle := List.countP_mono_left hpq'
        simp only [hpx, hqx, if_true, if_false, Bool.false_eq_true]
        omega
      · by_cases hpa : p a = true
        · have hqa := hpq a (List.mem_cons_self a l) hpa
          have hlt := ih hpq' hxl
          simp only [hpa, hqa, if_true]
          omega
        · have hlt := ih hpq' hxl
          by_cases hqa : q a = true <;>
            simp only [hpa, hqa, if_true, if_false, Bool.false_eq_true] <;> omega

lemma mem_getRanking {d : Direction} {df : List Row} {a : Row} :
    a ∈ getRanking d df ↔
      ∃ r ∈ df, { r with rank := 1 + (countBetter d df r.score : Int) } = a := by
  rw [getRanking]
  rw [(List.perm_insertionSort _ _).mem_iff, List.mem_map]

lemma rank_of_mem_getRanking {d : Direction} {df : List Row} {a : Row}
    (ha : a ∈ getRanking d df) :
    a.rank = 1 + (countBetter d df a.score : Int) ∧ ∃ r ∈ df, r.score = a.score := by
  obtain ⟨r, hr, heq⟩ := mem_getRanking.mp ha
  have hscore : a.score = r.score := by rw [← heq]
  have hrank : a.rank = 1 + (countBetter d df r.score : Int) := by rw [← heq]
  exact ⟨by rw [hrank, hscore], ⟨r, hr, hscore.symm⟩⟩

/-- C6: ranks follow pandas `rank(method='min')` under the predictor
direction: every output row's rank is 1 plus the number of strictly better
scores in the table; a strictly better score gets a strictly smaller rank;
tied scores get identical ranks; no rows are dropped; an empty input gives
an empty output. -/
theorem C6_rank_min_tie_semantics : ∀ (d : Direction) (df : List Row),
    (∀ a ∈ getRanking d df, a.rank = 1 + (countBetter d df a.score : Int))
    ∧ (∀ a ∈ getRanking d df, ∀ b ∈ getRanking d df,
        betterScore d a.score b.score → a.rank < b.rank)
    ∧ (∀ a ∈ getRanking d df, ∀ b ∈ getRanking d df,
        a.score = b.score → a.rank = b.rank)
    ∧ (getRanking d df).length = df.length
    ∧ (df = [] → getRanking d df = []) := by
  intro d df
  refine ⟨?_, ?_, ?_, ?_, ?_⟩
  · intro a ha
    exact (rank_of_mem_getRanking ha).1
  · intro a ha b hb hbet
    obtain ⟨hra, ra, hramem, hrasc⟩ := rank_of_mem_getRanking ha
    have hrb := (rank_of_mem_getRanking hb).1
    have hcnt : countBetter d df a.score < countBetter d df b.score := by
      refine countP_lt_of_witness _ _ df ?_ ra hramem ?_ ?_
      · intro y _ hy
        rw [decide_eq_true_eq] at hy ⊢
        exact betterScore_trans d hy hbet
      · rw [decide_eq_true_eq, hrasc]
        exact hbet
      · rw [decide_eq_false_iff_not, hrasc]
        exact betterScore_irrefl d a.score
    rw [hra, hrb]
    omega
  · intro a ha b hb hsc
    rw [(rank_of_mem_getRanking ha).1, (rank_of_mem_getRanking hb).1,
      countBetter, countBetter, hsc]
  · rw [getRanking]
    rw [(List.perm_insertionSort _ _).length_eq, List.length_map]
  · intro h
    subst h
    rfl

end EpitopePredict

namespace EpitopePredict

/-! ### Step 6: core deduplication keeps max score and first-seen fields -/

lemma aggCore_core (xs : List MergedRow) (c : Str) : (aggCore xs c).core = some c := rfl

lemma listMax_singleton (v : Int) : listMax [v] = v := rfl

lemma filterMap_core_map_aggCore (xs : List MergedRow) (L : List Str) :
    (L.map (aggCore xs)).filterMap (·.core) = L := by
  rw [List.filterMap_map]
  have h : ((·.core) ∘ aggCore xs) = some := funext fun c => rfl
  rw [h, List.filterMap_some]

lemma filter_map_aggCore_eq_singleton (xs : List MergedRow) :
    ∀ L : List Str, L.Nodup → ∀ c ∈ L,
      (L.map (aggCore xs)).filter (fun r => decide (r.core = some c)) = [aggCore xs c] := by
  intro L
  induction L with
  | nil => intro _ c hc; cases hc
  | cons k L ih =>
      intro hnd c hc
      have hk : k ∉ L := (List.nodup_cons.mp hnd).1
      have hndL : L.Nodup := (List.nodup_cons.mp hnd).2
      rw [List.map_cons]
      rcases List.mem_cons.mp hc with rfl | hcL
      · rw [List.filter_cons_of_pos (by simp [aggCore_core])]
        have htail : (L.map (aggCore xs)).filter (fun r => decide (r.core = some c)) = [] := by
          rw [List.filter_eq_nil_iff]
          intro r hr
          obtain ⟨c', hc', rfl⟩ := List.mem_map.mp hr
          simp only [aggCore_core, decide_eq_true_eq, Option.some.injEq]
          intro h
          exact hk (h ▸ hc')
        rw [htail]
      · rw [List.filter_cons_of_neg ?_, ih hndL c hcL]
        simp only [aggCore_core, decide_eq_true_eq, Option.some.injEq]
        intro h
        exact hk (h ▸ hcL)

lemma aggCore_of_singleton {ys : List MergedRow} {c : Str} {r : MergedRow}
    (hg : coreGroup ys c = [r]) (hc : r.core = some c) : aggCore ys c = r := by
  simp only [aggCore, hg, List.headD_cons, List.map_cons, List.map_nil, listMax_singleton]
  rw [← hc]

/-- C8: step 6 of the promiscuity aggregator (group by core, aggregate, sort
by position) is idempotent: on its own output every core appears exactly
once, each singleton group aggregates to itself, and re-sorting the same
core-ordered row list gives the same table. -/
theorem C8_dedup_idempotent : ∀ (xs : List MergedRow),
    dedupCore (dedupCore xs) = dedupCore xs := by
  intro xs
  have hLnodup : (coreKeys xs).Nodup :=
    (List.perm_insertionSort _ _).nodup_iff.mpr (dedupFirst_nodup _)
  have hperm : (List.insertionSort posLe ((coreKeys xs).map (aggCore xs))).Perm
      ((coreKeys xs).map (aggCore xs)) := List.perm_insertionSort _ _
  have hys : dedupCore xs = List.insertionSort posLe ((coreKeys xs).map (aggCore xs)) := rfl
  have hfm : ((coreKeys xs).map (aggCore xs)).filterMap (·.core) = coreKeys xs :=
    filterMap_core_map_aggCore xs _
  have hstep : (((coreKeys xs).map (aggCore xs)).filterMap (·.core)).Perm (coreKeys xs) := by
    rw [hfm]
  have hcores_perm : ((dedupCore xs).filterMap (·.core)).Perm (coreKeys xs) := by
    rw [hys]
    exact (hperm.filterMap _).trans hstep
  have hcores_nodup : ((dedupCore xs).filterMap (·.core)).Nodup :=
    hcores_perm.nodup_iff.mpr hLnodup
  have hkeys : coreKeys (dedupCore xs) = coreKeys xs := by
    have h1 : coreKeys (dedupCore xs)
        = List.insertionSort (· ≤ ·) ((dedupCore xs).filterMap (·.core)) := by
      simp only [coreKeys]
      rw [dedupFirst_eq_self hcores_nodup]
    rw [h1]
    exact insertionSort_le_eq_of_perm (hcores_perm.trans (List.perm_insertionSort _ _))
  have hgroup : ∀ c ∈ coreKeys xs, coreGroup (dedupCore xs) c = [aggCore xs c] := by
    intro c hc
    have h2 := filter_map_aggCore_eq_singleton xs (coreKeys xs) hLnodup c hc
    have h3 := hperm.filter (fun r => decide (r.core = some c))
    rw [h2] at h3
    exact List.perm_singleton.mp h3
  have hagg : ∀ c ∈ coreKeys xs, aggCore (dedupCore xs) c = aggCore xs c := by
    intro c hc
    exact aggCore_of_singleton (hgroup c hc) rfl
  calc dedupCore (dedupCore xs)
      = List.insertionSort posLe ((coreKeys (dedupCore xs)).map (aggCore (dedupCore xs))) := rfl
    _ = List.insertionSort posLe ((coreKeys xs).map (aggCore (dedupCore xs))) := by rw [hkeys]
    _ = List.insertionSort posLe ((coreKeys xs).map (aggCore xs)) := by
          rw [List.map_congr_left hagg]
    _ = dedupCore xs := rfl

/-- C1 (amended): every row of the final deduplicated table is the aggregate
of one core group of the joined frame — its score is the plain maximum of
the group's scores for both directions (the source always aggregates with
`max`), and its peptide, position, name and allele-count columns are the
first-seen values of the group — and every core of the joined frame is
represented. -/
theorem C1_dedup_keeps_max_and_first : ∀ (xs : List MergedRow),
    (∀ r ∈ dedupCore xs, ∃ c, r.core = some c
        ∧ coreGroup xs c ≠ []
        ∧ r.score = listMax ((coreGroup xs c).map (·.score))
        ∧ r.peptide = ((coreGroup xs c).headD defaultMerged).peptide
        ∧ r.pos = ((coreGroup xs c).headD defaultMerged).pos
        ∧ r.name = ((coreGroup xs c).headD defaultMerged).name
        ∧ r.alleleCount = ((coreGroup xs c).headD defaultMerged).alleleCount)
    ∧ ∀ c ∈ xs.filterMap (·.core), ∃ r ∈ dedupCore xs, r.core = some c := by
  intro xs
  constructor
  · intro r hr
    simp only [dedupCore] at hr
    have hr2 : r ∈ (coreKeys xs).map (aggCore xs) :=
      ((List.perm_insertionSort _ _).mem_iff).mp hr
    obtain ⟨c, hc, rfl⟩ := List.mem_map.mp hr2
    refine ⟨c, rfl, ?_, rfl, rfl, rfl, rfl, rfl⟩
    have hc2 : c ∈ xs.filterMap (·.core) := by
      simp only [coreKeys] at hc
      exact mem_dedupFirst.mp (((List.perm_insertionSort _ _).mem_iff).mp hc)
    obtain ⟨row, hrow, hrowc⟩ := List.mem_filterMap.mp hc2
    have hmem : row ∈ coreGroup xs c := List.mem_filter.mpr ⟨hrow, decide_eq_true hrowc⟩
    exact List.ne_nil_of_mem hmem
  · intro c hc
    have h1 : c ∈ coreKeys xs := by
      simp only [coreKeys]
      exact ((List.perm_insertionSort _ _).mem_iff).mpr (mem_dedupFirst.mpr hc)
    refine ⟨aggCore xs c, ?_, rfl⟩
    simp only [dedupCore]
    exact ((List.perm_insertionSort _ _).mem_iff).mpr (List.mem_map_of_mem _ h1)

/-! ### Promiscuity aggregation: counts, threshold and extreme score -/

/-- C4 (amended): when no (peptide, pos, name, allele) record is duplicated,
every group kept by the promiscuity filter has `alleleCount` equal to the
number of distinct alleles supporting the group (in general the source
counts records, not distinct alleles), at least `n` of them, and its score
is the direction extreme (min for lower-is-better, max otherwise) of the
group's scores; conversely every group with at least `n` records is kept. -/
theorem C4_group_aggregation : ∀ (d : Direction) (n : Nat) (b : List Row),
    (b.map (fun r => (rowKey r, r.allele))).Nodup →
    (∀ s ∈ promFiltered d n b,
        n ≤ s.alleleCount
        ∧ s.alleleCount
            = (dedupFirst ((groupRows b (s.peptide, s.pos, s.name)).map (·.allele))).length
        ∧ s.score = extremeScore d ((groupRows b (s.peptide, s.pos, s.name)).map (·.score)))
    ∧ ∀ g ∈ promGroups d b, n ≤ g.alleleCount → g ∈ promFiltered d n b := by
  intro d n b hnd
  constructor
  · intro s hs
    simp only [promFiltered] at hs
    obtain ⟨hmem, hcnt⟩ := List.mem_filter.mp hs
    have hn : n ≤ s.alleleCount := of_decide_eq_true hcnt
    simp only [promGroups] at hmem
    obtain ⟨k, hk, rfl⟩ := List.mem_map.mp hmem
    refine ⟨hn, ?_, rfl⟩
    have h1 : ((groupRows b k).map (fun r => (rowKey r, r.allele))).Nodup :=
      List.Nodup.sublist ((List.filter_sublist _).map _) hnd
    have h2 : (groupRows b k).map (fun r => (rowKey r, r.allele))
        = ((groupRows b k).map (·.allele)).map (fun a => (k, a)) := by
      rw [List.map_map]
      refine List.map_congr_left ?_
      intro r hrm
      have hkey : rowKey r = k := of_decide_eq_true (List.mem_filter.mp hrm).2
      simp [Function.comp, hkey]
    rw [h2] at h1
    have hall : ((groupRows b k).map (·.allele)).Nodup := h1.of_map _
    show (groupRows b k).length
        = (dedupFirst ((groupRows b k).map (·.allele))).length
    rw [dedupFirst_eq_self hall, List.length_map]
  · intro g hg hng
    simp only [promFiltered]
    exact List.mem_filter.mpr ⟨hg, decide_eq_true hng⟩

/-- C4 witness: the four-allele table `exC4w` has no duplicated records, the
amended aggregation theorem applies to it, and concretely the peptide
supported by 2 of 4 alleles is excluded at threshold 3 while the peptide
supported by 3 alleles is kept with `alleleCount` 3 and the extreme (minimum)
score of its three records. -/
theorem C4_witness :
    (exC4w.map (fun r => (rowKey r, r.allele))).Nodup
    ∧ ((∀ s ∈ promFiltered Direction.lower 3 exC4w,
          3 ≤ s.alleleCount
          ∧ s.alleleCount
              = (dedupFirst ((groupRows exC4w (s.peptide, s.pos, s.name)).map (·.allele))).length
          ∧ s.score = extremeScore Direction.lower
              ((groupRows exC4w (s.peptide, s.pos, s.name)).map (·.score)))
        ∧ ∀ g ∈ promGroups Direction.lower exC4w, 3 ≤ g.alleleCount →
            g ∈ promFiltered Direction.lower 3 exC4w)
    ∧ (promFiltered Direction.lower 3 exC4w).map (fun s => (s.peptide, s.alleleCount, s.score))
        = [(str "QQQQ", 3, 3)]
    ∧ (promGroups Direction.lower exC4w).map (fun s => (s.peptide, s.alleleCount))
        = [(str "PPPP", 2), (str "QQQQ", 3), (str "RRRR", 1)] := by
  refine ⟨by decide, C4_group_aggregation Direction.lower 3 exC4w (by decide), by decide, by decide⟩

end EpitopePredict

namespace EpitopePredict

/-! ### Cutoff calibrator: quantile rows are inverted for lower-is-better -/

lemma rawQuantile_single (c p : ℚ) : rawQuantile [c] p = c := by
  simp only [rawQuantile, List.insertionSort, List.orderedInsert, List.length_cons,
    List.length_nil]
  norm_num

/-- C5: for a lower-is-better predictor, the quantile table row that ends up
labelled `q` holds the raw `(1 - q)` quantile of the allele's concatenated
score distribution: the calibrator computes raw quantiles at every level `p`
and then relabels each row `p` as `1 - p` before persisting. -/
theorem C5_quantile_inversion : ∀ (dist : List ℚ) (q v : ℚ),
    (q, v) ∈ getScoreDistributions Direction.lower dist →
    v = rawQuantile dist (1 - q) := by
  intro dist q v hmem
  simp only [getScoreDistributions, quantileBins, List.map_map, List.mem_map] at hmem
  obtain ⟨p, _, heq⟩ := hmem
  have hq := congrArg Prod.fst heq
  have hv := congrArg Prod.snd heq
  simp only [Function.comp] at hq hv
  subst hq
  subst hv
  have hpp : 1 - (1 - p) = p := by ring
  rw [hpp]

/-- C5 witness: a singleton distribution [5]; the row that the calibrator
labels 99/100 (from the raw level 1/100) holds 5, the raw quantile of [5]
at level 1 - 99/100. -/
theorem C5_witness :
    ((99/100 : ℚ), (5 : ℚ)) ∈ getScoreDistributions Direction.lower [5]
    ∧ (5 : ℚ) = rawQuantile [5] (1 - 99/100) := by
  have hmem : ((99/100 : ℚ), (5 : ℚ)) ∈ getScoreDistributions Direction.lower [5] := by
    simp only [getScoreDistributions, quantileBins, percs, List.map_map, List.mem_map]
    refine ⟨0, ?_, ?_⟩
    · decide
    · simp only [Function.comp]
      rw [rawQuantile_single]
      norm_num
  exact ⟨hmem, C5_quantile_inversion [5] (99/100) 5 hmem⟩

/-! ### The representative allele of the promiscuity join -/

/-- C10: the representative frame `p = list(data.groupby('allele'))[0][1]`
is the row set of the allele that is least in sorted order among the alleles
present, an order-independent choice: permuting the input rows leaves the
sorted allele key list (hence the chosen allele) unchanged. -/
theorem C10_representative_allele : ∀ (data other : List Row),
    data ≠ [] → other.Perm data →
    ∃ a t, alleleKeys data = a :: t
      ∧ a ∈ data.map (·.allele)
      ∧ (∀ al ∈ data.map (·.allele), a ≤ al)
      ∧ repRows data = data.filter (fun r => decide (r.allele = a))
      ∧ alleleKeys other = alleleKeys data := by
  intro data other hne hperm
  have hmemkeys : ∀ x, x ∈ data.map (·.allele) ↔ x ∈ alleleKeys data := by
    intro x
    simp only [alleleKeys]
    rw [(List.perm_insertionSort _ _).mem_iff, mem_dedupFirst]
  have hkeysne : alleleKeys data ≠ [] := by
    cases data with
    | nil => exact absurd rfl hne
    | cons r rest =>
        have : r.allele ∈ alleleKeys (r :: rest) :=
          (hmemkeys r.allele).mp (by simp)
        exact List.ne_nil_of_mem this
  obtain ⟨a, t, halk⟩ : ∃ a t, alleleKeys data = a :: t := by
    cases h : alleleKeys data with
    | nil => exact absurd h hkeysne
    | cons a t => exact ⟨a, t, rfl⟩
  have hsorted : (alleleKeys data).Sorted (· ≤ ·) := List.sorted_insertionSort _ _
  refine ⟨a, t, halk, ?_, ?_, ?_, ?_⟩
  · exact (hmemkeys a).mpr (by rw [halk]; exact List.mem_cons_self a t)
  · intro al hal
    have : al ∈ a :: t := by rw [← halk]; exact (hmemkeys al).mp hal
    rcases List.mem_cons.mp this with rfl | hmt
    · exact le_refl al
    · rw [halk] at hsorted
      exact List.rel_of_sorted_cons hsorted al hmt
  · rw [repRows, halk]
  · exact insertionSort_le_eq_of_perm (dedupFirst_perm_of_perm (hperm.map _))

/-- C10 witness: the theorem applied to the concrete table `exC1` and its
reversal: the representative allele is a1, the least of the two alleles. -/
theorem C10_witness :
    ∃ a t, alleleKeys exC1 = a :: t
      ∧ a ∈ exC1.map (·.allele)
      ∧ (∀ al ∈ exC1.map (·.allele), a ≤ al)
      ∧ repRows exC1 = exC1.filter (fun r => decide (r.allele = a))
      ∧ alleleKeys exC1.reverse = alleleKeys exC1 :=
  C10_representative_allele exC1 exC1.reverse (by decide) (List.reverse_perm exC1)

end EpitopePredict
